import Mathlib

/-!
Shallow embedding of the LTI-systems library (`src/lib.rs`): transfer
functions, state-space models, the generalized bilinear discretization and
the per-sample simulation `step` functions.  Rust `f64` arithmetic is
embedded as exact rational arithmetic (`ℚ`); `DVector`/`DMatrix` become
`List ℚ` and Mathlib matrices over `Fin`-indexed types.  Rust panics
(`assert!` failures, `Option::unwrap` on `None`, `usize` subtraction
overflow and out-of-bounds indexing) are modelled by the `panicked`
constructor of `RustResult`.
-/

namespace TF

/-- Result of running a Rust function that may panic: either a normal
return value or a panic/abort of the process. -/
inductive RustResult (α : Type) : Type where
  | ok (val : α) : RustResult α
  | panicked : RustResult α
deriving DecidableEq

/-- `true` iff the computation returned normally. -/
def RustResult.isOk {α : Type} : RustResult α → Bool
  | .ok _ => true
  | .panicked => false

/-- `ContinuousTransferFunction { num, den }`: coefficient lists, highest
degree first. -/
structure ContinuousTransferFunction where
  num : List ℚ
  den : List ℚ
deriving DecidableEq

/-- `DiscreteTransferFunction`: coefficients plus the mutable simulation
registers `inputs` (length `num.length`) and `outputs` (length
`den.length`), newest first, and the (unused in `step`) sample interval
`dt`. -/
structure DiscreteTransferFunction where
  num : List ℚ
  den : List ℚ
  inputs : List ℚ
  outputs : List ℚ
  dt : ℚ
deriving DecidableEq

/-- `DiscreteTransferFunction::new`: zero-initialized registers sized by
`num`/`den`. -/
def DiscreteTransferFunction.new (num den : List ℚ) (dt : ℚ) :
    DiscreteTransferFunction :=
  { num := num, den := den,
    inputs := List.replicate num.length 0,
    outputs := List.replicate den.length 0,
    dt := dt }

/-- The register shift loop of `step`: every element moves one slot toward
the back (the oldest is dropped) and `x` enters index 0.  The length is
preserved.  For a nonempty list this is `x :: l.dropLast`. -/
def shiftReg (x : ℚ) (l : List ℚ) : List ℚ :=
  (x :: l).take l.length

/-- `DVector::dot` on equal-length lists. -/
def dotL (a b : List ℚ) : ℚ :=
  (List.zipWith (· * ·) a b).sum

/-- `DiscreteTransferFunction::step`: shift `inputs` with the new sample,
take `num · inputs`, shift `outputs`, subtract `den[1:] · outputs[1:]`
(the shifted outputs, i.e. the previous outputs without their last
element), divide by `den[0]`, store the result at `outputs[0]` and return
it.  The out-of-bounds panic on empty `num`/`den` registers is not
modelled (theorems about `step` assume nonempty registers). -/
def DiscreteTransferFunction.step (f : DiscreteTransferFunction) (input : ℚ) :
    ℚ × DiscreteTransferFunction :=
  let inputs := shiftReg input f.inputs
  let y := (dotL f.num inputs - dotL f.den.tail f.outputs.dropLast) / f.den.headI
  (y, { f with inputs := inputs, outputs := shiftReg y f.outputs })

/-- Feed a list of input samples through `step`, collecting the returned
outputs (the test-driver loop). -/
def runDTF (f : DiscreteTransferFunction) : List ℚ → List ℚ
  | [] => []
  | u :: us =>
    let r := f.step u
    r.1 :: runDTF r.2 us

/-- `ContinuousStateSpace { a, b, c, d }` with `a : n×n`, `b : n×1`,
`c : p×n`, `d : p×1` (the Rust code is dynamically sized; the output
dimension `p` is 1 for canonical realizations but e.g. 3 in the
discretization test). -/
structure ContinuousStateSpace (n p : ℕ) where
  a : Matrix (Fin n) (Fin n) ℚ
  b : Matrix (Fin n) (Fin 1) ℚ
  c : Matrix (Fin p) (Fin n) ℚ
  d : Matrix (Fin p) (Fin 1) ℚ

/-- `DiscreteStateSpace`: the four matrices plus the mutable state column
`x` and the sample interval `dt`. -/
structure DiscreteStateSpace (n p : ℕ) where
  a : Matrix (Fin n) (Fin n) ℚ
  b : Matrix (Fin n) (Fin 1) ℚ
  c : Matrix (Fin p) (Fin n) ℚ
  d : Matrix (Fin p) (Fin 1) ℚ
  x : Matrix (Fin n) (Fin 1) ℚ
  dt : ℚ

/-- `DiscreteStateSpace::new`: zero-initialized state vector. -/
def DiscreteStateSpace.new {n p : ℕ} (a : Matrix (Fin n) (Fin n) ℚ)
    (b : Matrix (Fin n) (Fin 1) ℚ) (c : Matrix (Fin p) (Fin n) ℚ)
    (d : Matrix (Fin p) (Fin 1) ℚ) (dt : ℚ) : DiscreteStateSpace n p :=
  { a := a, b := b, c := c, d := d, x := 0, dt := dt }

/-- Executable matrix inverse over `ℚ`: `det⁻¹ • adjugate`.  This is what
an exact LU solve computes for an invertible matrix; it agrees with
Mathlib's `Matrix.inv`. -/
def matInv {n : ℕ} (A : Matrix (Fin n) (Fin n) ℚ) : Matrix (Fin n) (Fin n) ℚ :=
  A.det⁻¹ • A.adjugate

/-- `ContinuousStateSpace::to_discrete`: the generalized bilinear
transform.  `ima = I − alpha·dt·A` is LU-factorized and the three solves
are `unwrap`ped; in exact arithmetic the solves succeed iff `ima` (equiv.
its transpose) is invertible, so a singular `ima` is modelled as a panic
(the `unwrap` on `None`). -/
def ContinuousStateSpace.to_discrete {n p : ℕ} (s : ContinuousStateSpace n p)
    (dt alpha : ℚ) : RustResult (DiscreteStateSpace n p) :=
  let ima : Matrix (Fin n) (Fin n) ℚ := 1 - (alpha * dt) • s.a
  if ima.det = 0 then .panicked
  else
    let ad := matInv ima * (1 + ((1 - alpha) * dt) • s.a)
    let bd := matInv ima * (dt • s.b)
    let cd := (matInv ima.transpose * s.c.transpose).transpose
    let dd := s.d + alpha • (s.c * bd)
    .ok (DiscreteStateSpace.new ad bd cd dd dt)

/-- `to_discrete` together with the receiver after the call: the Rust
method takes `&self` (an immutable borrow) and clones the four matrices,
so the receiver visible after the call is built from the same field
reads the method performs. -/
def ContinuousStateSpace.to_discrete_full {n p : ℕ}
    (s : ContinuousStateSpace n p) (dt alpha : ℚ) :
    ContinuousStateSpace n p × RustResult (DiscreteStateSpace n p) :=
  (⟨s.a, s.b, s.c, s.d⟩, s.to_discrete dt alpha)

/-- `DiscreteStateSpace::step`: `output = C·x + D·u` from the pre-update
state, then `x ← A·x + B·u`; returns entry 0 of the `p×1` output. -/
def DiscreteStateSpace.step {n p : ℕ} [NeZero p] (s : DiscreteStateSpace n p)
    (u : ℚ) : ℚ × DiscreteStateSpace n p :=
  ((s.c * s.x + u • s.d) 0 0, { s with x := s.a * s.x + u • s.b })

/-- Feed a list of input samples through `DiscreteStateSpace::step`,
collecting the returned outputs. -/
def runDSS {n p : ℕ} [NeZero p] (s : DiscreteStateSpace n p) :
    List ℚ → List ℚ
  | [] => []
  | u :: us =>
    let r := s.step u
    r.1 :: runDSS r.2 us

/-- The normalized denominator of `From<ContinuousTransferFunction>`:
every coefficient divided by `den[0]`. -/
def denN (tf : ContinuousTransferFunction) : List ℚ :=
  tf.den.map (· / tf.den.headI)

/-- The normalized numerator: `num` left-padded with zeros to the length
of `den` (`stack![zeros; num]`), then divided by `den[0]`. -/
def numN (tf : ContinuousTransferFunction) : List ℚ :=
  (List.replicate (tf.den.length - tf.num.length) 0 ++ tf.num).map
    (· / tf.den.headI)

/-- The order `n = den.length - 1` of the transfer function. -/
def tfOrder (tf : ContinuousTransferFunction) : ℕ :=
  tf.den.length - 1

/-- The `A` matrix of the controllable canonical form:
`stack![-den.rows(1, n).transpose(); identity(n-1, n)]` — first row the
negated trailing `n` normalized denominator coefficients, below it the
rectangular identity (sub-diagonal ones). -/
def ctfA (tf : ContinuousTransferFunction) :
    Matrix (Fin (tfOrder tf)) (Fin (tfOrder tf)) ℚ :=
  Matrix.of fun i j =>
    if (i : ℕ) = 0 then -((denN tf).getD ((j : ℕ) + 1) 0)
    else if (j : ℕ) + 1 = (i : ℕ) then 1 else 0

/-- The `B` matrix: `identity(n, 1)`, i.e. `[1,0,...,0]ᵀ`. -/
def ctfB (tf : ContinuousTransferFunction) :
    Matrix (Fin (tfOrder tf)) (Fin 1) ℚ :=
  Matrix.of fun i _ => if (i : ℕ) = 0 then 1 else 0

/-- The `C` row: trailing `n` normalized numerator coefficients minus
`num[0]` times the trailing `n` normalized denominator coefficients. -/
def ctfC (tf : ContinuousTransferFunction) :
    Matrix (Fin 1) (Fin (tfOrder tf)) ℚ :=
  Matrix.of fun _ j =>
    (numN tf).getD ((j : ℕ) + 1) 0 -
      (numN tf).getD 0 0 * (denN tf).getD ((j : ℕ) + 1) 0

/-- The `D` scalar: the leading normalized numerator coefficient. -/
def ctfD (tf : ContinuousTransferFunction) : Matrix (Fin 1) (Fin 1) ℚ :=
  Matrix.of fun _ _ => (numN tf).getD 0 0

/-- `impl From<ContinuousTransferFunction> for ContinuousStateSpace`.
The `assert!(den.len() >= num.len())` failure is a panic.  When
`den.length ≤ 1` the code panics as well: for an empty `den`,
`tf.den.len() - 1` underflows (and `den[0]` is out of bounds); for
`n = 0`, `DMatrix::identity(n - 1, n)` underflows `n - 1`.  Both are
modelled as `panicked`. -/
def tfToSS (tf : ContinuousTransferFunction) :
    RustResult (ContinuousStateSpace (tfOrder tf) 1) :=
  if tf.den.length < tf.num.length then .panicked
  else if tf.den.length ≤ 1 then .panicked
  else .ok ⟨ctfA tf, ctfB tf, ctfC tf, ctfD tf⟩

/-- The polynomial with coefficient list `l`, highest degree first
(`l = [a_k, ..., a_0]` means `a_k X^k + ... + a_0`).  Used to state what
transfer-function coefficient lists denote; the Rust code itself never
builds polynomials. -/
noncomputable def polyOfHi : List ℚ → Polynomial ℚ
  | [] => 0
  | a :: t => Polynomial.C a * Polynomial.X ^ t.length + polyOfHi t

/-- The embedding of polynomials into the rational-function field
`RatFunc ℚ`. -/
noncomputable def psiQ : Polynomial ℚ →+* RatFunc ℚ :=
  algebraMap (Polynomial ℚ) (RatFunc ℚ)

/-- The embedding of rational constants into `RatFunc ℚ`, through
constant polynomials. -/
noncomputable def phiQ : ℚ →+* RatFunc ℚ := psiQ.comp Polynomial.C

/-- The transfer function `C (sI - A)⁻¹ B + D` of a single-output
state-space model, as an element of the rational-function field
`RatFunc ℚ`: `sI - A` is `Matrix.charmatrix A` (whose entries are
`X - A i i` on the diagonal and `-A i j` off it), mapped into
`RatFunc ℚ`, and the coefficient matrices are mapped along.  This is the
mathematical meaning of "the state-space realization realizes a
transfer function". -/
noncomputable def ssTransfer {n : ℕ} (A : Matrix (Fin n) (Fin n) ℚ)
    (B : Matrix (Fin n) (Fin 1) ℚ) (C : Matrix (Fin 1) (Fin n) ℚ)
    (D : Matrix (Fin 1) (Fin 1) ℚ) : RatFunc ℚ :=
  ((C.map phiQ) * ((Matrix.charmatrix A).map psiQ)⁻¹ * (B.map phiQ) +
    D.map phiQ) 0 0

/-- The discrete transfer function of the repository's direct-form test
(`num = [1.3]`, `den = [2.0, 1.5]`, `dt = 0.1`). -/
def dtfExample : DiscreteTransferFunction :=
  DiscreteTransferFunction.new [1.3] [2, 1.5] 0.1

/-- The discrete state space of the repository's state-space test
(`A = [[-2,-3],[1,0]]`, `B = [1,0]ᵀ`, `C = [1,2]`, `D = [2]`). -/
def dssExample : DiscreteStateSpace 2 1 :=
  DiscreteStateSpace.new !![-2, -3; 1, 0] !![1; 0] !![1, 2] !![2] 0.1

/-- The continuous state space of the repository's discretization test
(`A = I(2×2)`, `B = [0.5,0.5]ᵀ`, `C` a 3×2 matrix, `D` a 3×1 vector). -/
def cssExample : ContinuousStateSpace 2 3 :=
  ⟨1, !![0.5; 0.5], !![0.75, 1; 1, 1; 1, 0.25], !![0; 0; -0.33]⟩

/-- A 1-state system whose bilinear matrix `M = I − alpha·dt·A` is
singular at `dt = 1`, `alpha = 1/2` (then `M = [[0]]`). -/
def cssSingular : ContinuousStateSpace 1 1 :=
  ⟨!![2], !![1], !![1], !![1]⟩

/-- The strictly-proper transfer function of the repository's
different-order conversion test: `num = [1,2,3]`, `den = [1,2,3,4]`. -/
def tfCubic : ContinuousTransferFunction :=
  ⟨[1, 2, 3], [1, 2, 3, 4]⟩

end TF

namespace TF

/-! ### Helper lemmas -/

/-- Shifting a nonempty register: the new sample enters index 0 and the
oldest sample is dropped. -/
theorem shiftReg_eq_cons_dropLast (x : ℚ) (l : List ℚ) (h : l ≠ []) :
    shiftReg x l = x :: l.dropLast := by
  cases l with
  | nil => exact absurd rfl h
  | cons a t => simp [shiftReg, List.dropLast_eq_take]

/-- The executable inverse agrees with Mathlib's matrix inverse. -/
theorem matInv_eq_inv {n : ℕ} (A : Matrix (Fin n) (Fin n) ℚ) :
    matInv A = A⁻¹ := by
  rw [Matrix.inv_def, Ring.inverse_eq_inv]
  rfl

/-- `step` never reads the `dt` field: overriding it only carries the
override through. -/
theorem step_set_dt (f : DiscreteTransferFunction) (d u : ℚ) :
    ({ f with dt := d } : DiscreteTransferFunction).step u =
      ((f.step u).1, { (f.step u).2 with dt := d }) := rfl

/-- `runDTF` ignores the `dt` field carried by the filter. -/
theorem runDTF_set_dt (us : List ℚ) (f : DiscreteTransferFunction) (d : ℚ) :
    runDTF { f with dt := d } us = runDTF f us := by
  induction us generalizing f with
  | nil => rfl
  | cons u us ih =>
    simp only [runDTF, step_set_dt]
    exact congrArg _ (ih _)

/-! ### C3: the direct-form-I recurrence of `DiscreteTransferFunction::step` -/

/-- C3.  Each `step(u)` call shifts the `inputs` and `outputs` registers
(newest sample at index 0, oldest dropped), computes
`(dot(num, inputs) − dot(den[1:], outputs[1:])) / den[0]`, stores it at
`outputs[0]` and returns it; the repository's literal test vector
(`num = [1.3]`, `den = [2.0, 1.5]`, inputs `[0.2, 0.4, 0.6, 0.8, 1.0]`)
produces exactly `[0.13, 0.1625, 0.268125, 0.31890625, 0.4108203125]`. -/
theorem dtf_step_recurrence (f : DiscreteTransferFunction) (u : ℚ)
    (hin : f.inputs ≠ []) (hout : f.outputs ≠ []) :
    (f.step u).2.inputs = u :: f.inputs.dropLast ∧
    (f.step u).1 =
      (dotL f.num (u :: f.inputs.dropLast) -
        dotL f.den.tail f.outputs.dropLast) / f.den.headI ∧
    (f.step u).2.outputs = (f.step u).1 :: f.outputs.dropLast ∧
    (f.step u).2.num = f.num ∧ (f.step u).2.den = f.den ∧
    runDTF dtfExample [0.2, 0.4, 0.6, 0.8, 1] =
      [0.13, 0.1625, 0.268125, 0.31890625, 0.4108203125] := by
  refine ⟨?_, ?_, ?_, rfl, rfl, ?_⟩
  · simp [DiscreteTransferFunction.step, shiftReg_eq_cons_dropLast _ _ hin]
  · simp [DiscreteTransferFunction.step, shiftReg_eq_cons_dropLast _ _ hin]
  · simp [DiscreteTransferFunction.step, shiftReg_eq_cons_dropLast _ _ hout]
  · norm_num [dtfExample, runDTF, DiscreteTransferFunction.step,
      DiscreteTransferFunction.new, shiftReg, dotL]

/-- Witness for C3 at the repository's test filter and its first input
sample. -/
theorem dtf_step_recurrence_witness :
    dtfExample.inputs ≠ [] ∧ dtfExample.outputs ≠ [] ∧
    ((dtfExample.step 0.2).2.inputs = 0.2 :: dtfExample.inputs.dropLast ∧
      (dtfExample.step 0.2).1 =
        (dotL dtfExample.num (0.2 :: dtfExample.inputs.dropLast) -
          dotL dtfExample.den.tail dtfExample.outputs.dropLast) /
          dtfExample.den.headI ∧
      (dtfExample.step 0.2).2.outputs =
        (dtfExample.step 0.2).1 :: dtfExample.outputs.dropLast ∧
      (dtfExample.step 0.2).2.num = dtfExample.num ∧
      (dtfExample.step 0.2).2.den = dtfExample.den ∧
      runDTF dtfExample [0.2, 0.4, 0.6, 0.8, 1] =
        [0.13, 0.1625, 0.268125, 0.31890625, 0.4108203125]) :=
  ⟨by simp [dtfExample, DiscreteTransferFunction.new],
   by simp [dtfExample, DiscreteTransferFunction.new],
   dtf_step_recurrence dtfExample 0.2
     (by simp [dtfExample, DiscreteTransferFunction.new])
     (by simp [dtfExample, DiscreteTransferFunction.new])⟩

/-! ### C4: `DiscreteStateSpace::step` -/

/-- C4.  `step(u)` returns `(C·x + D·u)[0]` computed from the pre-update
state, then advances the state to `A·x + B·u`; the repository's literal
test (`A = [[-2,-3],[1,0]]`, `B = [1,0]ᵀ`, `C = [1,2]`, `D = [2]`,
inputs `[0.2, 0.4, 0.6, 0.8, 1.0]` from the zero state) returns
`[0.4, 1.0, 1.6, 1.6, 2.8]`. -/
theorem dss_step_output {n p : ℕ} [NeZero p] (s : DiscreteStateSpace n p)
    (u : ℚ) :
    (s.step u).1 = (s.c * s.x + u • s.d) 0 0 ∧
    (s.step u).2.x = s.a * s.x + u • s.b ∧
    (s.step u).2.a = s.a ∧ (s.step u).2.b = s.b ∧
    (s.step u).2.c = s.c ∧ (s.step u).2.d = s.d ∧
    runDSS dssExample [0.2, 0.4, 0.6, 0.8, 1] = [0.4, 1, 1.6, 1.6, 2.8] := by
  refine ⟨rfl, rfl, rfl, rfl, rfl, rfl, ?_⟩
  norm_num [dssExample, runDSS, DiscreteStateSpace.step, DiscreteStateSpace.new,
    Matrix.mul_apply, Fin.sum_univ_two]

/-- Witness for C4 at the repository's test system and its first input
sample. -/
theorem dss_step_output_witness :
    (dssExample.step 0.2).1 = (dssExample.c * dssExample.x + (0.2 : ℚ) • dssExample.d) 0 0 ∧
    (dssExample.step 0.2).2.x = dssExample.a * dssExample.x + (0.2 : ℚ) • dssExample.b ∧
    (dssExample.step 0.2).2.a = dssExample.a ∧
    (dssExample.step 0.2).2.b = dssExample.b ∧
    (dssExample.step 0.2).2.c = dssExample.c ∧
    (dssExample.step 0.2).2.d = dssExample.d ∧
    runDSS dssExample [0.2, 0.4, 0.6, 0.8, 1] = [0.4, 1, 1.6, 1.6, 2.8] :=
  dss_step_output dssExample 0.2

/-! ### C9: `dt` is informational for `DiscreteTransferFunction` -/

/-- C9.  Two `DiscreteTransferFunction`s built from the same `num` and
`den` but different `dt` values produce identical output sequences on
every input sequence: the recurrence never reads `dt`. -/
theorem dtf_dt_informational (num den : List ℚ) (dt1 dt2 : ℚ) (us : List ℚ) :
    runDTF (DiscreteTransferFunction.new num den dt1) us =
      runDTF (DiscreteTransferFunction.new num den dt2) us := by
  have h : DiscreteTransferFunction.new num den dt1 =
      { DiscreteTransferFunction.new num den dt2 with dt := dt1 } := rfl
  rw [h, runDTF_set_dt]

/-! ### C10: `to_discrete` leaves the continuous system unchanged -/

/-- C10.  `to_discrete` takes its receiver by immutable borrow and clones
the four matrices: the continuous system visible after the call is the
one passed in, all four matrices unchanged. -/
theorem to_discrete_preserves_receiver {n p : ℕ}
    (s : ContinuousStateSpace n p) (dt alpha : ℚ) :
    (s.to_discrete_full dt alpha).1 = s ∧
    (s.to_discrete_full dt alpha).1.a = s.a ∧
    (s.to_discrete_full dt alpha).1.b = s.b ∧
    (s.to_discrete_full dt alpha).1.c = s.c ∧
    (s.to_discrete_full dt alpha).1.d = s.d ∧
    (s.to_discrete_full dt alpha).2 = s.to_discrete dt alpha :=
  ⟨rfl, rfl, rfl, rfl, rfl, rfl⟩

/-! ### C5: a zero leading denominator coefficient is not rejected -/

/-- Counterexample to C5 as stated: for `num = [1]`, `den = [0, 1]`
(leading denominator coefficient zero) the conversion does **not** fail —
it returns a state space. -/
theorem tfToSS_den0_zero_cex : (tfToSS ⟨[1], [0, 1]⟩).isOk = true := rfl

/-- C5 amended: the conversion never checks `den[0]`.  For any proper
transfer function of positive order with `den[0] = 0` it still returns a
realization (whose coefficients come from dividing by zero — non-finite
values in `f64` arithmetic) instead of failing. -/
theorem tfToSS_den0_zero_still_ok (tf : ContinuousTransferFunction)
    (hlen : tf.num.length ≤ tf.den.length) (hord : 2 ≤ tf.den.length)
    (hd0 : tf.den.headI = 0) :
    (tfToSS tf).isOk = true := by
  rw [tfToSS, if_neg (by omega), if_neg (by omega)]
  rfl

/-- Witness for the amended C5 at `num = [1]`, `den = [0, 1]`. -/
theorem tfToSS_den0_zero_still_ok_witness :
    (1 : ℕ) ≤ 2 ∧ (2 : ℕ) ≤ 2 ∧ ([0, 1] : List ℚ).headI = 0 ∧
    (tfToSS ⟨[1], [0, 1]⟩).isOk = true :=
  ⟨by norm_num, by norm_num, by norm_num,
   tfToSS_den0_zero_still_ok ⟨[1], [0, 1]⟩ (by norm_num) (by norm_num)
     (by norm_num)⟩

/-! ### C6: malformed models make the conversion panic, not error -/

/-- Counterexample to C6 as stated: for `num = [1, 2]`, `den = [1]`
(numerator longer than denominator) the conversion panics (the `assert!`
aborts) instead of reporting an input-validation error to the caller. -/
theorem tfToSS_improper_cex : tfToSS ⟨[1, 2], [1]⟩ = .panicked := rfl

/-- C6 amended: a numerator longer than the denominator trips the
`assert!` and an empty denominator underflows `den.len() - 1` /
over-indexes `den[0]`; both abort by panic.  Construction itself
performs no validation, and no error value is ever returned. -/
theorem tfToSS_invalid_input_panics (tf : ContinuousTransferFunction)
    (h : tf.den.length < tf.num.length ∨ tf.den.length = 0) :
    tfToSS tf = .panicked := by
  by_cases h1 : tf.den.length < tf.num.length
  · rw [tfToSS, if_pos h1]
  · rcases h with h | h
    · exact absurd h h1
    · rw [tfToSS, if_neg h1, if_pos (by omega)]

/-- Witness for the amended C6 at `num = [1, 2]`, `den = [1]`. -/
theorem tfToSS_invalid_input_panics_witness :
    (([1] : List ℚ).length < ([1, 2] : List ℚ).length ∨
      ([1] : List ℚ).length = 0) ∧
    tfToSS ⟨[1, 2], [1]⟩ = .panicked :=
  ⟨Or.inl (by norm_num),
   tfToSS_invalid_input_panics ⟨[1, 2], [1]⟩ (Or.inl (by norm_num))⟩

/-! ### C7: a singular bilinear matrix makes `to_discrete` panic -/

/-- Counterexample to C7 as stated: for the 1-state system `A = [[2]]`
with `dt = 1`, `alpha = 1/2` the matrix `M = I − alpha·dt·A = [[0]]` is
singular and `to_discrete` panics (the `unwrap` of the failed LU solve)
instead of surfacing a non-invertible-matrix error to the caller. -/
theorem to_discrete_singular_cex :
    cssSingular.to_discrete 1 (1/2) = .panicked := by
  rw [ContinuousStateSpace.to_discrete, if_pos]
  norm_num [cssSingular, Matrix.det_fin_one]

/-- C7 amended: whenever `M = I − alpha·dt·A` is singular, `to_discrete`
panics (aborts via `unwrap` on the failed solve); the failure is a
process panic, not an error value returned to the caller. -/
theorem to_discrete_singular_panics {n p : ℕ} (s : ContinuousStateSpace n p)
    (dt alpha : ℚ) (h : (1 - (alpha * dt) • s.a).det = 0) :
    s.to_discrete dt alpha = .panicked := by
  rw [ContinuousStateSpace.to_discrete, if_pos h]

/-- Witness for the amended C7 at the singular 1-state example. -/
theorem to_discrete_singular_panics_witness :
    (1 - ((1/2 : ℚ) * 1) • cssSingular.a).det = 0 ∧
    cssSingular.to_discrete 1 (1/2) = .panicked :=
  ⟨by norm_num [cssSingular, Matrix.det_fin_one],
   to_discrete_singular_panics cssSingular 1 (1/2)
     (by norm_num [cssSingular, Matrix.det_fin_one])⟩

/-! ### C8: the pure-static-gain case `n = 0` misbehaves -/

/-- C8: evaluating the conversion at the failing input `num = [1.0]`,
`den = [2.0]` (order `n = 0`): the code neither rejects the input
explicitly nor special-cases it — `DMatrix::identity(n - 1, n)`
underflows `n - 1` and the call aborts (modelled as a panic). -/
theorem tfToSS_order_zero_panics : tfToSS ⟨[1], [2]⟩ = .panicked := rfl

/-! ### C1: the generalized bilinear transform -/

/-- C1.  For an invertible `M = I − alpha·dt·A`, `to_discrete(dt, alpha)`
returns `A_d = M⁻¹(I + (1−alpha)·dt·A)`, `B_d = M⁻¹(dt·B)`,
`C_d = (Mᵀ⁻¹·Cᵀ)ᵀ`, `D_d = D + alpha·(C·B_d)` (with zero initial state
and the given `dt`); at the repository's test instance (`A = I(2×2)`,
`B = [0.5,0.5]ᵀ`, the given 3×2 `C` and 3×1 `D`, `dt = 0.5`,
`alpha = 1/3`) it returns `A_d = 1.6·I`, `B_d = [0.3,0.3]ᵀ`, and the
correspondingly computed `C_d` and `D_d`. -/
theorem to_discrete_bilinear_correct {n p : ℕ} (s : ContinuousStateSpace n p)
    (dt alpha : ℚ) (hdt : 0 < dt) (h0 : 0 ≤ alpha) (h1 : alpha ≤ 1)
    (hdet : (1 - (alpha * dt) • s.a).det ≠ 0) :
    s.to_discrete dt alpha = .ok (DiscreteStateSpace.new
      ((1 - (alpha * dt) • s.a)⁻¹ * (1 + ((1 - alpha) * dt) • s.a))
      ((1 - (alpha * dt) • s.a)⁻¹ * (dt • s.b))
      (((1 - (alpha * dt) • s.a).transpose⁻¹ * s.c.transpose).transpose)
      (s.d + alpha • (s.c * ((1 - (alpha * dt) • s.a)⁻¹ * (dt • s.b))))
      dt) ∧
    cssExample.to_discrete 0.5 (1/3) = .ok (DiscreteStateSpace.new
      ((1.6 : ℚ) • 1) !![0.3; 0.3] !![0.9, 1.2; 1.2, 1.2; 1.2, 0.3]
      !![0.175; 0.2; -0.205] 0.5) := by
  constructor
  · rw [ContinuousStateSpace.to_discrete]
    simp only [if_neg hdet, matInv_eq_inv]
  · have hM : (1 - ((1/3 : ℚ) * (0.5)) • cssExample.a) = !![5/6, 0; 0, 5/6] := by
      ext i j
      fin_cases i <;> fin_cases j <;> norm_num [cssExample, Matrix.one_apply]
    have hMT : (1 - ((1/3 : ℚ) * (0.5)) • cssExample.a).transpose =
        !![5/6, 0; 0, 5/6] := by
      rw [hM]
      ext i j
      fin_cases i <;> fin_cases j <;> norm_num [Matrix.transpose_apply]
    have hMdet : (1 - ((1/3 : ℚ) * (0.5)) • cssExample.a).det ≠ 0 := by
      rw [hM, Matrix.det_fin_two]
      norm_num
    have hMinv : (1 - ((1/3 : ℚ) * (0.5)) • cssExample.a)⁻¹ =
        !![6/5, 0; 0, 6/5] := by
      rw [hM]
      apply Matrix.inv_eq_right_inv
      ext i j
      fin_cases i <;> fin_cases j <;>
        norm_num [Matrix.mul_apply, Fin.sum_univ_two, Matrix.one_apply]
    have hMTinv : (1 - ((1/3 : ℚ) * (0.5)) • cssExample.a).transpose⁻¹ =
        !![6/5, 0; 0, 6/5] := by
      rw [hMT]
      apply Matrix.inv_eq_right_inv
      ext i j
      fin_cases i <;> fin_cases j <;>
        norm_num [Matrix.mul_apply, Fin.sum_univ_two, Matrix.one_apply]
    rw [ContinuousStateSpace.to_discrete]
    simp only [if_neg hMdet, matInv_eq_inv]
    simp only [RustResult.ok.injEq, DiscreteStateSpace.new,
      DiscreteStateSpace.mk.injEq]
    refine ⟨?_, ?_, ?_, ?_, trivial, trivial⟩
    · rw [hMinv]
      ext i j
      fin_cases i <;> fin_cases j <;>
        norm_num [cssExample, Matrix.mul_apply, Fin.sum_univ_two,
          Matrix.one_apply]
    · rw [hMinv]
      ext i j
      fin_cases i <;> fin_cases j <;>
        norm_num [cssExample, Matrix.mul_apply, Fin.sum_univ_two,
          Matrix.one_apply]
    · rw [hMTinv]
      ext i j
      fin_cases i <;> fin_cases j <;>
        norm_num [cssExample, Matrix.mul_apply, Fin.sum_univ_two,
          Matrix.transpose_apply, Matrix.vecHead, Matrix.vecTail,
          Matrix.cons_val_succ]
    · rw [hMinv]
      ext i j
      fin_cases i <;> fin_cases j <;>
        norm_num [cssExample, Matrix.mul_apply, Fin.sum_univ_two,
          Matrix.one_apply, Matrix.vecHead, Matrix.vecTail,
          Matrix.cons_val_succ]

/-- Witness for C1 at the repository's discretization test instance. -/
theorem to_discrete_bilinear_correct_witness :
    (0 : ℚ) < 0.5 ∧ (0 : ℚ) ≤ 1/3 ∧ (1/3 : ℚ) ≤ 1 ∧
    (1 - ((1/3 : ℚ) * 0.5) • cssExample.a).det ≠ 0 ∧
    cssExample.to_discrete 0.5 (1/3) = .ok (DiscreteStateSpace.new
      ((1.6 : ℚ) • 1) !![0.3; 0.3] !![0.9, 1.2; 1.2, 1.2; 1.2, 0.3]
      !![0.175; 0.2; -0.205] 0.5) := by
  have hdet : (1 - ((1/3 : ℚ) * 0.5) • cssExample.a).det ≠ 0 := by
    have hM : (1 - ((1/3 : ℚ) * (0.5)) • cssExample.a) = !![5/6, 0; 0, 5/6] := by
      ext i j
      fin_cases i <;> fin_cases j <;> norm_num [cssExample, Matrix.one_apply]
    rw [hM, Matrix.det_fin_two]
    norm_num
  exact ⟨by norm_num, by norm_num, by norm_num, hdet,
    (to_discrete_bilinear_correct cssExample 0.5 (1/3) (by norm_num)
      (by norm_num) (by norm_num) hdet).2⟩

/-! ### C2: controllable canonical form machinery -/

open Polynomial in
theorem polyOfHi_eq_sum (l : List ℚ) :
    polyOfHi l = ∑ i ∈ Finset.range l.length,
      Polynomial.C (l.getD i 0) * Polynomial.X ^ (l.length - 1 - i) := by
  induction l with
  | nil => simp [polyOfHi]
  | cons a t ih =>
    rw [polyOfHi, ih, List.length_cons, Finset.sum_range_succ']
    simp only [List.getD_cons_succ, List.getD_cons_zero, Nat.add_sub_cancel,
      Nat.sub_zero]
    rw [add_comm]
    congr 1
    apply Finset.sum_congr rfl
    intro i hi
    congr 2
    omega

open Polynomial in
theorem polyOfHi_natDegree_le (l : List ℚ) :
    (polyOfHi l).natDegree ≤ l.length - 1 := by
  induction l with
  | nil => simp [polyOfHi]
  | cons a t ih =>
    rw [polyOfHi]
    refine le_trans (Polynomial.natDegree_add_le _ _) ?_
    simp only [List.length_cons, Nat.add_sub_cancel]
    refine max_le (le_trans (Polynomial.natDegree_C_mul_le _ _) ?_) (le_trans ih ?_)
    · simp
    · omega

open Polynomial in
theorem polyOfHi_coeff_head (a : ℚ) (t : List ℚ) :
    (polyOfHi (a :: t)).coeff t.length = a := by
  rw [polyOfHi, Polynomial.coeff_add, Polynomial.coeff_C_mul,
    Polynomial.coeff_X_pow]
  have h : (polyOfHi t).coeff t.length = 0 := by
    cases t with
    | nil => simp [polyOfHi]
    | cons b u =>
      apply Polynomial.coeff_eq_zero_of_natDegree_lt
      refine lt_of_le_of_lt (polyOfHi_natDegree_le _) ?_
      simp
  rw [h]
  simp

theorem polyOfHi_ne_zero (a : ℚ) (t : List ℚ) (h : a ≠ 0) :
    polyOfHi (a :: t) ≠ 0 := by
  intro hz
  have := polyOfHi_coeff_head a t
  rw [hz] at this
  simp at this
  exact h this.symm

theorem polyOfHi_map_div (l : List ℚ) (k : ℚ) :
    polyOfHi (l.map (· / k)) = Polynomial.C k⁻¹ * polyOfHi l := by
  induction l with
  | nil => simp [polyOfHi]
  | cons a t ih =>
    rw [List.map_cons, polyOfHi, polyOfHi, List.length_map, ih]
    have h : Polynomial.C (a / k) = Polynomial.C a * Polynomial.C k⁻¹ := by
      rw [div_eq_mul_inv, map_mul]
    rw [h]
    ring

theorem polyOfHi_replicate_zero (m : ℕ) (l : List ℚ) :
    polyOfHi (List.replicate m 0 ++ l) = polyOfHi l := by
  induction m with
  | zero => rfl
  | succ m ih =>
    rw [List.replicate_succ, List.cons_append, polyOfHi, ih]
    simp

theorem getD_map_div (l : List ℚ) (k : ℚ) (i : ℕ) :
    (l.map (· / k)).getD i 0 = l.getD i 0 / k := by
  induction l generalizing i with
  | nil => simp
  | cons a t ih =>
    cases i with
    | zero => rfl
    | succ i => simpa using ih i

theorem headI_eq_getD (l : List ℚ) : l.headI = l.getD 0 0 := by
  cases l <;> rfl

theorem psi_polyOfHi_expand (l : List ℚ) (n : ℕ) (hl : l.length = n + 1) :
    psiQ (polyOfHi l) =
      phiQ (l.getD 0 0) * RatFunc.X ^ n +
        ∑ j ∈ Finset.range n, phiQ (l.getD (j + 1) 0) * RatFunc.X ^ (n - 1 - j) := by
  rw [polyOfHi_eq_sum, hl, map_sum, Finset.sum_range_succ', add_comm]
  congr 1
  · simp [phiQ, psiQ, RatFunc.algebraMap_X]
  · apply Finset.sum_congr rfl
    intro i hi
    simp only [map_mul, map_pow]
    rw [show psiQ Polynomial.X = (RatFunc.X : RatFunc ℚ) from RatFunc.algebraMap_X,
      show psiQ (Polynomial.C (l.getD (i + 1) 0)) = phiQ (l.getD (i + 1) 0) from rfl,
      show n + 1 - 1 - (i + 1) = n - 1 - i from by omega]

theorem charMap_apply {n : ℕ} (A : Matrix (Fin n) (Fin n) ℚ) (i j : Fin n) :
    (Matrix.charmatrix A).map psiQ i j =
      (if i = j then (RatFunc.X : RatFunc ℚ) else 0) - phiQ (A i j) := by
  rw [Matrix.map_apply, Matrix.charmatrix_apply, map_sub]
  rw [Matrix.diagonal_apply]
  by_cases h : i = j <;> simp [h, phiQ, psiQ, RatFunc.algebraMap_X]

theorem charMap_det_ne_zero {n : ℕ} (A : Matrix (Fin n) (Fin n) ℚ) :
    ((Matrix.charmatrix A).map psiQ).det ≠ 0 := by
  have h : ((Matrix.charmatrix A).map psiQ).det = psiQ A.charpoly := by
    rw [show (Matrix.charmatrix A).map psiQ = psiQ.mapMatrix (Matrix.charmatrix A)
      from rfl, ← RingHom.map_det]
    rfl
  rw [h, psiQ]
  exact RatFunc.algebraMap_ne_zero (Matrix.charpoly_monic A).ne_zero

set_option synthInstance.maxHeartbeats 1000000 in
set_option maxHeartbeats 2000000 in
theorem ctf_realization (tf : ContinuousTransferFunction)
    (hlen : tf.num.length ≤ tf.den.length) (hord : 2 ≤ tf.den.length)
    (hd0 : tf.den.headI ≠ 0) :
    ssTransfer (ctfA tf) (ctfB tf) (ctfC tf) (ctfD tf) =
      psiQ (polyOfHi tf.num) / psiQ (polyOfHi tf.den) := by
  set n := tfOrder tf with hndef
  have hn1 : 1 ≤ n := by
    simp only [hndef, tfOrder]
    omega
  have hdlen : (denN tf).length = n + 1 := by
    simp only [denN, List.length_map, hndef, tfOrder]
    omega
  have hnlen : (numN tf).length = n + 1 := by
    simp only [numN, List.length_map, List.length_append,
      List.length_replicate, hndef, tfOrder]
    omega
  have hden0 : (denN tf).getD 0 0 = 1 := by
    rw [denN, getD_map_div, ← headI_eq_getD, div_self hd0]
  have hpden_ne : polyOfHi (denN tf) ≠ 0 := by
    rcases hl : tf.den with _ | ⟨h, t⟩
    · rw [hl] at hord
      simp at hord
    · have hh : tf.den.headI = h := by rw [hl]; rfl
      have hhne : h ≠ 0 := by rw [← hh]; exact hd0
      rw [denN, hl]
      simp only [List.map_cons, List.headI_cons]
      rw [div_self hhne]
      exact polyOfHi_ne_zero _ _ one_ne_zero
  have hdF : psiQ (polyOfHi (denN tf)) ≠ 0 := RatFunc.algebraMap_ne_zero hpden_ne
  have hunit : IsUnit ((Matrix.charmatrix (ctfA tf)).map psiQ).det :=
    isUnit_iff_ne_zero.mpr (charMap_det_ne_zero _)
  have hkey : (Matrix.charmatrix (ctfA tf)).map psiQ *
      Matrix.of (fun (i : Fin n) (_ : Fin 1) => (RatFunc.X : RatFunc ℚ) ^ (n - 1 - (i : ℕ))) =
      psiQ (polyOfHi (denN tf)) • ((ctfB tf).map phiQ) := by
    ext i k
    rw [Matrix.mul_apply]
    have hrow : ∀ j : Fin n,
        (Matrix.charmatrix (ctfA tf)).map psiQ i j *
          Matrix.of (fun (i : Fin n) (_ : Fin 1) => (RatFunc.X : RatFunc ℚ) ^ (n - 1 - (i : ℕ))) j k =
        (if i = j then (RatFunc.X : RatFunc ℚ) * RatFunc.X ^ (n - 1 - (j : ℕ)) else 0) -
          phiQ (ctfA tf i j) * RatFunc.X ^ (n - 1 - (j : ℕ)) := by
      intro j
      rw [charMap_apply, Matrix.of_apply, sub_mul, ite_mul, zero_mul]
    rw [Finset.sum_congr rfl (fun j _ => hrow j), Finset.sum_sub_distrib,
      Finset.sum_ite_eq]
    simp only [Finset.mem_univ, if_true]
    by_cases hi : (i : ℕ) = 0
    · have hA : ∀ j : Fin n, ctfA tf i j = -((denN tf).getD ((j : ℕ) + 1) 0) := by
        intro j
        simp [ctfA, hi]
      have hB : ((ctfB tf).map phiQ) i k = 1 := by
        simp [ctfB, hi, Matrix.map_apply]
      rw [Matrix.smul_apply, hB, smul_eq_mul, mul_one]
      rw [Finset.sum_congr rfl (fun j _ => by rw [hA j, map_neg, neg_mul])]
      rw [Finset.sum_neg_distrib, sub_neg_eq_add]
      rw [hi]
      rw [show (RatFunc.X : RatFunc ℚ) * RatFunc.X ^ (n - 1 - 0) = RatFunc.X ^ n by
        rw [← pow_succ']
        congr 1
        omega]
      rw [psi_polyOfHi_expand _ _ hdlen, hden0, map_one, one_mul]
      congr 1
      rw [← Fin.sum_univ_eq_sum_range
        (fun j => phiQ ((denN tf).getD (j + 1) 0) * RatFunc.X ^ (n - 1 - j)) n]
    · have hi1 : 1 ≤ (i : ℕ) := Nat.one_le_iff_ne_zero.mpr hi
      have hA : ∀ j : Fin n, ctfA tf i j =
          (if (j : ℕ) + 1 = (i : ℕ) then 1 else 0) := by
        intro j
        simp [ctfA, hi]
      have hB : ((ctfB tf).map phiQ) i k = 0 := by
        simp [ctfB, hi, Matrix.map_apply]
      rw [Matrix.smul_apply, hB, smul_zero]
      have hsum2 : ∑ j : Fin n, phiQ (ctfA tf i j) * (RatFunc.X : RatFunc ℚ) ^ (n - 1 - (j : ℕ)) =
          RatFunc.X ^ (n - 1 - ((i : ℕ) - 1)) := by
        rw [Finset.sum_eq_single (⟨(i : ℕ) - 1, by omega⟩ : Fin n)]
        · rw [hA]
          simp only []
          rw [if_pos (by omega)]
          rw [map_one, one_mul]
        · intro j _ hj
          rw [hA]
          rw [if_neg, map_zero, zero_mul]
          intro hc
          apply hj
          apply Fin.ext
          simp only []
          omega
        · intro hmem
          exact absurd (Finset.mem_univ _) hmem
      rw [hsum2]
      rw [show (RatFunc.X : RatFunc ℚ) * RatFunc.X ^ (n - 1 - (i : ℕ)) =
          RatFunc.X ^ (n - 1 - ((i : ℕ) - 1)) by
        rw [← pow_succ']
        congr 1
        have := i.isLt
        omega]
      exact sub_self _
  have hsolve : ((Matrix.charmatrix (ctfA tf)).map psiQ)⁻¹ * ((ctfB tf).map phiQ) =
      (psiQ (polyOfHi (denN tf)))⁻¹ •
        Matrix.of (fun (i : Fin n) (_ : Fin 1) => (RatFunc.X : RatFunc ℚ) ^ (n - 1 - (i : ℕ))) := by
    have h2 : Matrix.of (fun (i : Fin n) (_ : Fin 1) => (RatFunc.X : RatFunc ℚ) ^ (n - 1 - (i : ℕ))) =
        psiQ (polyOfHi (denN tf)) •
          (((Matrix.charmatrix (ctfA tf)).map psiQ)⁻¹ * ((ctfB tf).map phiQ)) := by
      calc Matrix.of (fun (i : Fin n) (_ : Fin 1) => (RatFunc.X : RatFunc ℚ) ^ (n - 1 - (i : ℕ)))
          = ((Matrix.charmatrix (ctfA tf)).map psiQ)⁻¹ *
              ((Matrix.charmatrix (ctfA tf)).map psiQ *
                Matrix.of (fun (i : Fin n) (_ : Fin 1) => (RatFunc.X : RatFunc ℚ) ^ (n - 1 - (i : ℕ)))) :=
            (Matrix.nonsing_inv_mul_cancel_left _ _ hunit).symm
        _ = ((Matrix.charmatrix (ctfA tf)).map psiQ)⁻¹ *
              (psiQ (polyOfHi (denN tf)) • ((ctfB tf).map phiQ)) := by rw [hkey]
        _ = psiQ (polyOfHi (denN tf)) •
              (((Matrix.charmatrix (ctfA tf)).map psiQ)⁻¹ * ((ctfB tf).map phiQ)) :=
            Matrix.mul_smul _ _ _
    exact ((inv_smul_eq_iff₀ hdF).mpr h2).symm
  rw [ssTransfer, Matrix.mul_assoc, hsolve]
  rw [Matrix.mul_smul, Matrix.add_apply, Matrix.smul_apply, smul_eq_mul]
  have hD : ((ctfD tf).map phiQ) 0 0 = phiQ ((numN tf).getD 0 0) := by
    simp [ctfD, Matrix.map_apply]
  rw [hD]
  have hCX : (((ctfC tf).map phiQ) *
      Matrix.of (fun (i : Fin n) (_ : Fin 1) => (RatFunc.X : RatFunc ℚ) ^ (n - 1 - (i : ℕ)))) 0 0 =
      ∑ j : Fin n, phiQ (ctfC tf 0 j) * (RatFunc.X : RatFunc ℚ) ^ (n - 1 - (j : ℕ)) := by
    rw [Matrix.mul_apply]
    apply Finset.sum_congr rfl
    intro j _
    rw [Matrix.map_apply, Matrix.of_apply]
  rw [hCX]
  have hC : ∀ j : Fin n, ctfC tf 0 j =
      (numN tf).getD ((j : ℕ) + 1) 0 -
        (numN tf).getD 0 0 * (denN tf).getD ((j : ℕ) + 1) 0 := by
    intro j
    simp [ctfC]
  have hsum : ∑ j : Fin n, phiQ (ctfC tf 0 j) * (RatFunc.X : RatFunc ℚ) ^ (n - 1 - (j : ℕ)) =
      (∑ j ∈ Finset.range n, phiQ ((numN tf).getD (j + 1) 0) * (RatFunc.X : RatFunc ℚ) ^ (n - 1 - j)) -
        phiQ ((numN tf).getD 0 0) *
          ∑ j ∈ Finset.range n, phiQ ((denN tf).getD (j + 1) 0) * (RatFunc.X : RatFunc ℚ) ^ (n - 1 - j) := by
    have hterm : ∀ j : Fin n,
        phiQ (ctfC tf 0 j) * (RatFunc.X : RatFunc ℚ) ^ (n - 1 - (j : ℕ)) =
        (fun m => (phiQ ((numN tf).getD (m + 1) 0) -
            phiQ ((numN tf).getD 0 0) * phiQ ((denN tf).getD (m + 1) 0)) *
          (RatFunc.X : RatFunc ℚ) ^ (n - 1 - m)) ((j : ℕ)) := by
      intro j
      rw [hC j, map_sub, map_mul]
    rw [Finset.sum_congr rfl (fun j _ => hterm j)]
    rw [Fin.sum_univ_eq_sum_range
      (fun m => (phiQ ((numN tf).getD (m + 1) 0) -
          phiQ ((numN tf).getD 0 0) * phiQ ((denN tf).getD (m + 1) 0)) *
        (RatFunc.X : RatFunc ℚ) ^ (n - 1 - m)) n]
    rw [Finset.mul_sum]
    rw [← Finset.sum_sub_distrib]
    apply Finset.sum_congr rfl
    intro j _
    ring
  rw [hsum]
  have hnF : psiQ (polyOfHi (numN tf)) =
      phiQ ((numN tf).getD 0 0) * (RatFunc.X : RatFunc ℚ) ^ n +
        ∑ j ∈ Finset.range n, phiQ ((numN tf).getD (j + 1) 0) * (RatFunc.X : RatFunc ℚ) ^ (n - 1 - j) :=
    psi_polyOfHi_expand _ _ hnlen
  have hdFex : psiQ (polyOfHi (denN tf)) =
      (RatFunc.X : RatFunc ℚ) ^ n +
        ∑ j ∈ Finset.range n, phiQ ((denN tf).getD (j + 1) 0) * (RatFunc.X : RatFunc ℚ) ^ (n - 1 - j) := by
    rw [psi_polyOfHi_expand _ _ hdlen, hden0, map_one, one_mul]
  have hmain : (∑ j ∈ Finset.range n, phiQ ((numN tf).getD (j + 1) 0) * (RatFunc.X : RatFunc ℚ) ^ (n - 1 - j)) -
        phiQ ((numN tf).getD 0 0) *
          (∑ j ∈ Finset.range n, phiQ ((denN tf).getD (j + 1) 0) * (RatFunc.X : RatFunc ℚ) ^ (n - 1 - j)) +
        phiQ ((numN tf).getD 0 0) * psiQ (polyOfHi (denN tf)) =
      psiQ (polyOfHi (numN tf)) := by
    rw [hnF, hdFex]
    ring
  have halg : (psiQ (polyOfHi (denN tf)))⁻¹ *
        ((∑ j ∈ Finset.range n, phiQ ((numN tf).getD (j + 1) 0) * (RatFunc.X : RatFunc ℚ) ^ (n - 1 - j)) -
          phiQ ((numN tf).getD 0 0) *
            ∑ j ∈ Finset.range n, phiQ ((denN tf).getD (j + 1) 0) * (RatFunc.X : RatFunc ℚ) ^ (n - 1 - j)) +
        phiQ ((numN tf).getD 0 0) =
      psiQ (polyOfHi (numN tf)) / psiQ (polyOfHi (denN tf)) := by
    rw [← hmain]
    field_simp
  rw [halg]
  have hnum2 : polyOfHi (numN tf) =
      Polynomial.C (tf.den.headI)⁻¹ * polyOfHi tf.num := by
    rw [numN, polyOfHi_map_div, polyOfHi_replicate_zero]
  have hden2 : polyOfHi (denN tf) =
      Polynomial.C (tf.den.headI)⁻¹ * polyOfHi tf.den := by
    rw [denN, polyOfHi_map_div]
  rw [hnum2, hden2, map_mul, map_mul]
  exact mul_div_mul_left _ _
    (RatFunc.algebraMap_ne_zero (Polynomial.C_ne_zero.mpr (inv_ne_zero hd0)))

/-! ### C2: TF → SS conversion is the controllable canonical form and an
exact realization -/

/-- C2.  For a proper transfer function (`len(num) ≤ len(den)`, order
`n = len(den) − 1 ≥ 1`, `den[0] ≠ 0`) the conversion left-pads `num`
with zeros, normalizes by `den[0]` (`numN`/`denN`), and returns the
controllable canonical form: `A`'s first row is the negated trailing `n`
normalized denominator coefficients and its remaining rows a shifted
identity, `B = [1,0,...,0]ᵀ`, `C` is the trailing `n` normalized
numerator coefficients minus `num[0]` times the trailing normalized
denominator coefficients, `D = [num[0]]`; and this state space realizes
exactly the same transfer function, `C (sI−A)⁻¹ B + D = num(s)/den(s)`
in `RatFunc ℚ`. -/
theorem tfToSS_canonical_realization (tf : ContinuousTransferFunction)
    (hlen : tf.num.length ≤ tf.den.length) (hord : 2 ≤ tf.den.length)
    (hd0 : tf.den.headI ≠ 0) :
    tfToSS tf = .ok ⟨ctfA tf, ctfB tf, ctfC tf, ctfD tf⟩ ∧
    (∀ i j : Fin (tfOrder tf), (i : ℕ) = 0 →
      ctfA tf i j = -((denN tf).getD ((j : ℕ) + 1) 0)) ∧
    (∀ i j : Fin (tfOrder tf), (i : ℕ) ≠ 0 →
      ctfA tf i j = if (j : ℕ) + 1 = (i : ℕ) then 1 else 0) ∧
    (∀ (i : Fin (tfOrder tf)) (j : Fin 1),
      ctfB tf i j = if (i : ℕ) = 0 then 1 else 0) ∧
    (∀ (i : Fin 1) (j : Fin (tfOrder tf)),
      ctfC tf i j = (numN tf).getD ((j : ℕ) + 1) 0 -
        (numN tf).getD 0 0 * (denN tf).getD ((j : ℕ) + 1) 0) ∧
    (∀ i j : Fin 1, ctfD tf i j = (numN tf).getD 0 0) ∧
    ssTransfer (ctfA tf) (ctfB tf) (ctfC tf) (ctfD tf) =
      psiQ (polyOfHi tf.num) / psiQ (polyOfHi tf.den) := by
  refine ⟨?_, ?_, ?_, ?_, ?_, ?_, ctf_realization tf hlen hord hd0⟩
  · rw [tfToSS, if_neg (by omega), if_neg (by omega)]
  · intro i j hi
    simp [ctfA, hi]
  · intro i j hi
    simp [ctfA, hi]
  · intro i j
    rfl
  · intro i j
    rfl
  · intro i j
    rfl

/-- Witness for C2 at the repository's different-order test input
(`num = [1,2,3]`, `den = [1,2,3,4]`). -/
theorem tfToSS_canonical_realization_witness :
    tfCubic.num.length ≤ tfCubic.den.length ∧ 2 ≤ tfCubic.den.length ∧
    tfCubic.den.headI ≠ 0 ∧
    (tfToSS tfCubic = .ok ⟨ctfA tfCubic, ctfB tfCubic, ctfC tfCubic, ctfD tfCubic⟩ ∧
      (∀ i j : Fin (tfOrder tfCubic), (i : ℕ) = 0 →
        ctfA tfCubic i j = -((denN tfCubic).getD ((j : ℕ) + 1) 0)) ∧
      (∀ i j : Fin (tfOrder tfCubic), (i : ℕ) ≠ 0 →
        ctfA tfCubic i j = if (j : ℕ) + 1 = (i : ℕ) then 1 else 0) ∧
      (∀ (i : Fin (tfOrder tfCubic)) (j : Fin 1),
        ctfB tfCubic i j = if (i : ℕ) = 0 then 1 else 0) ∧
      (∀ (i : Fin 1) (j : Fin (tfOrder tfCubic)),
        ctfC tfCubic i j = (numN tfCubic).getD ((j : ℕ) + 1) 0 -
          (numN tfCubic).getD 0 0 * (denN tfCubic).getD ((j : ℕ) + 1) 0) ∧
      (∀ i j : Fin 1, ctfD tfCubic i j = (numN tfCubic).getD 0 0) ∧
      ssTransfer (ctfA tfCubic) (ctfB tfCubic) (ctfC tfCubic) (ctfD tfCubic) =
        psiQ (polyOfHi tfCubic.num) / psiQ (polyOfHi tfCubic.den)) :=
  ⟨by norm_num [tfCubic], by norm_num [tfCubic], by norm_num [tfCubic],
   tfToSS_canonical_realization tfCubic (by norm_num [tfCubic])
     (by norm_num [tfCubic]) (by norm_num [tfCubic])⟩

end TF
